import Mathlib

/-!
Verification model of the `useCache` hook (src/react/useCache.ts and the
unnamed source file, which adds `clear`): an in-memory key-value cache with a
per-cache TTL and a capacity-based eviction pass on every write.

Modelling choices, faithful to the TypeScript source:

* The JS `Map<string, CacheEntry<V>>` held in `cacheRef.current` is modelled
  as an insertion-ordered association list (`EntryMap`).  JS `Map` iterates
  in insertion order, `Map.set` of an existing key updates the entry in
  place (keeping its position), `Map.set` of a fresh key appends, and
  `Map.delete` removes the entry; `mapGet`, `mapSet`, `mapDelete` implement
  exactly this.
* `Date.now()` is an ambient input; every operation takes the current time
  `t : Int` (milliseconds) explicitly.  The several `now()` calls performed
  inside one synchronous operation are identified (no time passes during a
  single call).
* The canonical key is `getCacheKey(key) = JSON.stringify(key)`.
  `JSON.stringify` returns either a non-empty string or the non-string
  value `undefined` (for `undefined`, functions and symbols), and that
  value is used directly as the `Map` key.  We encode the `undefined`
  canonical key as the empty string `""`: it is the unique falsy value of
  the canonical-key type, exactly as `undefined` is the unique falsy
  canonical key in the source.  The guard `if (soonestKey)` in
  `evictEntryIfOverCapacity` is JS truthiness, which fails on `null`,
  `undefined` and `""`; it is modelled by testing `soonestKey` against
  `none` (for `null`) and `""` (for the falsy key).
* `ttlMs` and `capacity` are JS numbers used only in additions and
  comparisons here; they are modelled as `Int` (Date.now() and the default
  configuration values are integers).
-/

namespace TtlCache

/-- `CacheEntry<V> = { value: V; expiresAt: number }`. -/
structure CacheEntry (V : Type) where
  value : V
  expiresAt : Int
deriving Repr, DecidableEq

/-- The JS `Map<string, CacheEntry<V>>`, as an insertion-ordered association
list.  The invariant that each key occurs at most once is maintained by the
operations (as it is for a JS `Map`) but is not baked into the type. -/
abbrev EntryMap (V : Type) := List (String × CacheEntry V)

/-- `Map.get`: the entry stored under `k`, if any. -/
def mapGet {V : Type} : EntryMap V → String → Option (CacheEntry V)
  | [], _ => none
  | (k₀, e) :: rest, k => if k₀ = k then some e else mapGet rest k

/-- `Map.has` (equivalently, `Map.get` returning a defined value). -/
def mapContains {V : Type} (m : EntryMap V) (k : String) : Bool :=
  (mapGet m k).isSome

/-- `Map.set`: update in place if the key is present (keeping its position in
iteration order), otherwise append at the end. -/
def mapSet {V : Type} : EntryMap V → String → CacheEntry V → EntryMap V
  | [], k, e => [(k, e)]
  | (k₀, e₀) :: rest, k, e =>
      if k₀ = k then (k, e) :: rest else (k₀, e₀) :: mapSet rest k e

/-- `Map.delete`: remove the entry stored under `k`. -/
def mapDelete {V : Type} (m : EntryMap V) (k : String) : EntryMap V :=
  m.filter (fun kv => decide (kv.1 ≠ k))

/-- The cache state owned by one `useCache` instance: the entry map plus the
configuration captured at construction (`ttlMs`, `capacity`). -/
structure CacheState (V : Type) where
  entries : EntryMap V
  ttlMs : Int
  capacity : Int
deriving Repr, DecidableEq

/-- A fresh cache as constructed by `useCache({ttlMs, capacity})`: an empty
map and the captured configuration.  No validation is performed. -/
def mkCache {V : Type} (ttlMs capacity : Int) : CacheState V :=
  { entries := [], ttlMs := ttlMs, capacity := capacity }

/-- `isExpired = (entry) => entry.expiresAt <= now()`. -/
def isExpired {V : Type} (t : Int) (e : CacheEntry V) : Bool :=
  decide (e.expiresAt ≤ t)

/-- `pruneExpiredEntries`: delete every entry with `expiresAt <= time`.
(The JS loop deletes the current element while iterating, which `Map`
iteration supports; the net effect is this filter.) -/
def pruneExpiredEntries {V : Type} (t : Int) (m : EntryMap V) : EntryMap V :=
  m.filter (fun kv => ! decide (kv.2.expiresAt ≤ t))

/-- The scan loop of `evictEntryIfOverCapacity`, carrying the best candidate
so far (`soonestKey`, `soonestExpiry`) and replacing it only on a strictly
smaller `expiresAt`. -/
def scanAux {V : Type} (bk : String) (be : Int) : EntryMap V → String × Int
  | [] => (bk, be)
  | (k, e) :: rest =>
      if e.expiresAt < be then scanAux k e.expiresAt rest else scanAux bk be rest

/-- The whole scan of `evictEntryIfOverCapacity`: `soonestKey` starts as
`null` and `soonestExpiry` as `Infinity`, so on a non-empty map the first
entry always becomes the first candidate (`expiresAt < Infinity`) and the
result is `null` only on an empty map. -/
def scanSoonest {V : Type} : EntryMap V → Option (String × Int)
  | [] => none
  | (k, e) :: rest => some (scanAux k e.expiresAt rest)

/-- `evictEntryIfOverCapacity`: return early if `size < capacity`; otherwise
scan for the entry with the soonest `expiresAt` and delete it — but only if
`soonestKey` is truthy (`if (soonestKey)`), i.e. non-null and not the falsy
canonical key. -/
def evictEntryIfOverCapacity {V : Type} (c : CacheState V) : CacheState V :=
  if (c.entries.length : Int) < c.capacity then c
  else
    match scanSoonest c.entries with
    | none => c
    | some (k, _) => if k = "" then c else { c with entries := mapDelete c.entries k }

/-- `get`: look the canonical key up; absent keys and expired entries give
`undefined`, an expired entry is deleted on observation (lazy expiry); the
state component of the result is the cache after the call. -/
def get {V : Type} (t : Int) (c : CacheState V) (k : String) : Option V × CacheState V :=
  match mapGet c.entries k with
  | none => (none, c)
  | some e =>
      if isExpired t e then (none, { c with entries := mapDelete c.entries k })
      else (some e.value, c)

/-- `set`: prune expired entries, run the capacity-eviction pass, then store
a fresh entry `{ value, expiresAt: now() + ttlMs }` under the canonical key. -/
def set {V : Type} (t : Int) (c : CacheState V) (k : String) (v : V) : CacheState V :=
  let c₁ := { c with entries := pruneExpiredEntries t c.entries }
  let c₂ := evictEntryIfOverCapacity c₁
  { c₂ with entries := mapSet c₂.entries k { value := v, expiresAt := t + c.ttlMs } }

/-- `clear`: `cacheRef.current.clear()`. -/
def clear {V : Type} (c : CacheState V) : CacheState V :=
  { c with entries := [] }

/-- One call against the public surface of the cache, tagged with the time at
which it runs and the canonical form of its key. -/
inductive CacheOp (V : Type) where
  | getOp (t : Int) (key : String)
  | setOp (t : Int) (key : String) (value : V)
  | clearOp
deriving Repr, DecidableEq

/-- Apply one call to the cache state (the value returned by `get` is
discarded; only the state evolution matters here). -/
def applyOp {V : Type} (c : CacheState V) : CacheOp V → CacheState V
  | .getOp t k => (get t c k).snd
  | .setOp t k v => set t c k v
  | .clearOp => clear c

/-- Run a sequence of calls left to right. -/
def run {V : Type} (c : CacheState V) (ops : List (CacheOp V)) : CacheState V :=
  ops.foldl applyOp c

/-- A composite caller key: a flat JS object with integer field values, the
fields listed in property insertion order. -/
abbrev ObjKey := List (String × Int)

/-- `getCacheKey(key) = JSON.stringify(key)` restricted to flat objects with
integer field values: `JSON.stringify` serializes the fields in property
insertion order. -/
def getCacheKey (k : ObjKey) : String :=
  "\x7b" ++ String.intercalate ","
      (k.map (fun f => "\"" ++ f.1 ++ "\":" ++ toString f.2)) ++ "\x7d"

/-! ### Lemmas about the `Map` model -/

variable {V : Type}

theorem mapGet_eq_some_of_mem {m : EntryMap V} {k : String} {e : CacheEntry V}
    (h : mapGet m k = some e) : (k, e) ∈ m := by
  induction m with
  | nil => simp [mapGet] at h
  | cons kv rest ih =>
    obtain ⟨k₀, e₀⟩ := kv
    by_cases hk : k₀ = k
    · subst hk
      simp [mapGet] at h
      subst h
      exact List.mem_cons_self _ _
    · simp [mapGet, hk] at h
      exact List.mem_cons_of_mem _ (ih h)

theorem mapContains_of_mem {m : EntryMap V} {k : String} {e : CacheEntry V}
    (h : (k, e) ∈ m) : mapContains m k = true := by
  induction m with
  | nil => simp at h
  | cons kv rest ih =>
    obtain ⟨k₀, e₀⟩ := kv
    rcases List.mem_cons.1 h with h₀ | h₀
    · obtain ⟨h₁, h₂⟩ := Prod.mk.injEq .. ▸ h₀
      simp [mapContains, mapGet, h₁.symm]
    · by_cases hk : k₀ = k
      · simp [mapContains, mapGet, hk]
      · simpa [mapContains, mapGet, hk] using ih h₀

/-- After `Map.set`, the key maps to the new entry. -/
theorem mapGet_mapSet_self (m : EntryMap V) (k : String) (e : CacheEntry V) :
    mapGet (mapSet m k e) k = some e := by
  induction m with
  | nil => simp [mapSet, mapGet]
  | cons kv rest ih =>
    obtain ⟨k₀, e₀⟩ := kv
    by_cases hk : k₀ = k
    · simp [mapSet, mapGet, hk]
    · simpa [mapSet, mapGet, hk] using ih

/-- `Map.set` leaves other keys untouched. -/
theorem mapGet_mapSet_ne (m : EntryMap V) (k j : String) (e : CacheEntry V)
    (h : j ≠ k) : mapGet (mapSet m k e) j = mapGet m j := by
  induction m with
  | nil =>
    have hkj : ¬ k = j := fun hj => h hj.symm
    simp [mapSet, mapGet, hkj]
  | cons kv rest ih =>
    obtain ⟨k₀, e₀⟩ := kv
    by_cases hk : k₀ = k
    · subst hk
      have hkj : ¬ k₀ = j := fun hj => h hj.symm
      simp [mapSet, mapGet, hkj]
    · by_cases hj : k₀ = j
      · subst hj
        have hkj : ¬ k₀ = k := hk
        simp [mapSet, mapGet, hkj]
      · simp [mapSet, mapGet, hk, hj, ih]

/-- Every element of `Map.set`'s result is an old element or the new pair. -/
theorem mem_mapSet_cases {m : EntryMap V} {k : String} {e : CacheEntry V}
    {kv : String × CacheEntry V} (h : kv ∈ mapSet m k e) :
    kv ∈ m ∨ kv = (k, e) := by
  induction m with
  | nil => simpa [mapSet] using h
  | cons kv₀ rest ih =>
    obtain ⟨k₀, e₀⟩ := kv₀
    by_cases hk : k₀ = k
    · rw [mapSet, if_pos hk] at h
      rcases List.mem_cons.1 h with h₀ | h₀
      · exact Or.inr h₀
      · exact Or.inl (List.mem_cons_of_mem _ h₀)
    · rw [mapSet, if_neg hk] at h
      rcases List.mem_cons.1 h with h₀ | h₀
      · exact Or.inl (h₀ ▸ List.mem_cons_self _ _)
      · rcases ih h₀ with h₁ | h₁
        · exact Or.inl (List.mem_cons_of_mem _ h₁)
        · exact Or.inr h₁

theorem length_mapSet_le (m : EntryMap V) (k : String) (e : CacheEntry V) :
    (mapSet m k e).length ≤ m.length + 1 := by
  induction m with
  | nil => simp [mapSet]
  | cons kv rest ih =>
    obtain ⟨k₀, e₀⟩ := kv
    by_cases hk : k₀ = k <;> simp [mapSet, hk] <;> omega

theorem length_mapSet_of_contains {m : EntryMap V} {k : String}
    (e : CacheEntry V) (h : mapContains m k = true) :
    (mapSet m k e).length = m.length := by
  induction m with
  | nil => simp [mapContains, mapGet] at h
  | cons kv rest ih =>
    obtain ⟨k₀, e₀⟩ := kv
    by_cases hk : k₀ = k
    · simp [mapSet, hk]
    · have h₁ : mapContains rest k = true := by
        simpa [mapContains, mapGet, hk] using h
      simp [mapSet, hk, ih h₁]

/-- `Map.delete` of a present key strictly shrinks the map. -/
theorem length_mapDelete_lt {m : EntryMap V} {k : String} {e : CacheEntry V}
    (h : (k, e) ∈ m) : (mapDelete m k).length < m.length := by
  induction m with
  | nil => simp at h
  | cons kv rest ih =>
    rcases List.mem_cons.1 h with h₀ | h₀
    · subst h₀
      simp only [mapDelete, List.filter_cons]
      have hd : decide ((k, e).1 ≠ k) = false := by simp
      rw [hd]
      have := List.length_filter_le (fun kv => decide (kv.1 ≠ k)) rest
      simpa [mapDelete] using Nat.lt_succ_of_le this
    · have hlt := ih h₀
      simp only [mapDelete, List.filter_cons] at hlt ⊢
      by_cases hk : kv.1 = k
      · have hd : decide (kv.1 ≠ k) = false := by simp [hk]
        rw [hd]
        exact Nat.lt_succ_of_lt hlt
      · have hd : decide (kv.1 ≠ k) = true := by simpa using hk
        rw [hd]
        simpa using Nat.succ_lt_succ hlt

theorem length_mapDelete_le (m : EntryMap V) (k : String) :
    (mapDelete m k).length ≤ m.length :=
  List.length_filter_le _ _

/-- `Map.delete` removes the key and leaves every other key untouched. -/
theorem mapGet_mapDelete (m : EntryMap V) (k j : String) :
    mapGet (mapDelete m k) j = if j = k then none else mapGet m j := by
  induction m with
  | nil => simp [mapDelete, mapGet]
  | cons kv rest ih =>
    obtain ⟨k₀, e₀⟩ := kv
    simp only [mapDelete, List.filter_cons] at ih ⊢
    by_cases hk : k₀ = k
    · have : decide ((k₀, e₀).1 ≠ k) = false := by simp [hk]
      rw [this]
      by_cases hj : j = k
      · simpa [hj] using ih
      · have hne : ¬ k₀ = j := fun h => hj (hk ▸ h ▸ rfl)
        simp only [mapGet, if_neg hne]
        simpa [hj] using ih
    · have : decide ((k₀, e₀).1 ≠ k) = true := by simpa using hk
      rw [this]
      by_cases hj : k₀ = j
      · have : ¬ j = k := fun h => hk (hj ▸ h ▸ rfl)
        simp [mapGet, hj, this]
      · simpa [mapGet, hj] using ih

theorem mem_of_mem_mapDelete {m : EntryMap V} {k : String}
    {kv : String × CacheEntry V} (h : kv ∈ mapDelete m k) : kv ∈ m :=
  List.mem_of_mem_filter h

/-- A fresh key stays absent only when distinct from an appended one. -/
theorem mapContains_append_single (m : EntryMap V) (k j : String)
    (e : CacheEntry V) :
    mapContains (m ++ [(k, e)]) j = (mapContains m j || decide (k = j)) := by
  induction m with
  | nil => by_cases h : k = j <;> simp [mapContains, mapGet, h]
  | cons kv rest ih =>
    obtain ⟨k₀, e₀⟩ := kv
    by_cases h : k₀ = j <;> simp [mapContains, mapGet, h] at ih ⊢ <;> simp [ih]

/-! ### Lemmas about the eviction scan -/

/-- Full characterization of the scan loop: either no entry beats the
incoming candidate (which is then returned, and every scanned `expiresAt` is
at least `be`), or the result is the first entry of the list attaining the
overall minimum `expiresAt` strictly below `be` — every entry before it is
strictly larger, every entry at all is at least it. -/
theorem scanAux_spec (l : EntryMap V) : ∀ (bk : String) (be : Int),
    (scanAux bk be l = (bk, be) ∧ ∀ kv ∈ l, be ≤ kv.2.expiresAt)
    ∨ (∃ k₀ en pre post, scanAux bk be l = (k₀, en.expiresAt)
        ∧ l = pre ++ (k₀, en) :: post
        ∧ en.expiresAt < be
        ∧ (∀ kv ∈ pre, en.expiresAt < kv.2.expiresAt)
        ∧ (∀ kv ∈ l, en.expiresAt ≤ kv.2.expiresAt)) := by
  induction l with
  | nil => intro bk be; exact Or.inl ⟨rfl, by simp⟩
  | cons hd tl ih =>
    intro bk be
    obtain ⟨k, e⟩ := hd
    by_cases hlt : e.expiresAt < be
    · rw [scanAux, if_pos hlt]
      rcases ih k e.expiresAt with ⟨heq, hmin⟩ | ⟨k₀, en, pre, post, heq, hdec, hbe, hpre, hmin⟩
      · refine Or.inr ⟨k, e, [], tl, heq, by simp, hlt, by simp, ?_⟩
        intro kv hkv
        rcases List.mem_cons.1 hkv with h₀ | h₀
        · rw [h₀]
        · exact hmin kv h₀
      · refine Or.inr ⟨k₀, en, (k, e) :: pre, post, heq, by simp [hdec], by omega, ?_, ?_⟩
        · intro kv hkv
          rcases List.mem_cons.1 hkv with h₀ | h₀
          · rw [h₀]; exact hbe
          · exact hpre kv h₀
        · intro kv hkv
          rcases List.mem_cons.1 hkv with h₀ | h₀
          · rw [h₀]; exact le_of_lt hbe
          · exact hmin kv h₀
    · rw [scanAux, if_neg hlt]
      rcases ih bk be with ⟨heq, hmin⟩ | ⟨k₀, en, pre, post, heq, hdec, hbe, hpre, hmin⟩
      · refine Or.inl ⟨heq, ?_⟩
        intro kv hkv
        rcases List.mem_cons.1 hkv with h₀ | h₀
        · rw [h₀]; dsimp only; omega
        · exact hmin kv h₀
      · refine Or.inr ⟨k₀, en, (k, e) :: pre, post, heq, by simp [hdec], hbe, ?_, ?_⟩
        · intro kv hkv
          rcases List.mem_cons.1 hkv with h₀ | h₀
          · rw [h₀]; dsimp only; omega
          · exact hpre kv h₀
        · intro kv hkv
          rcases List.mem_cons.1 hkv with h₀ | h₀
          · rw [h₀]; dsimp only; omega
          · exact hmin kv h₀

/-- The scan on a non-empty map returns the first entry (in iteration order)
attaining the minimal `expiresAt`. -/
theorem scanSoonest_spec {m : EntryMap V} {k₀ : String} {e₀ : Int}
    (h : scanSoonest m = some (k₀, e₀)) :
    (∃ en pre post, m = pre ++ (k₀, en) :: post ∧ en.expiresAt = e₀
      ∧ ∀ kv ∈ pre, e₀ < kv.2.expiresAt)
    ∧ ∀ kv ∈ m, e₀ ≤ kv.2.expiresAt := by
  match m with
  | [] => simp [scanSoonest] at h
  | (k, e) :: rest =>
    rw [scanSoonest] at h
    have h' : scanAux k e.expiresAt rest = (k₀, e₀) := Option.some.inj h
    rcases scanAux_spec rest k e.expiresAt with ⟨heq, hmin⟩ | ⟨k₁, en, pre, post, heq, hdec, hbe, hpre, hmin⟩
    · obtain ⟨hk, he⟩ := Prod.ext_iff.1 (heq.symm.trans h')
      dsimp only at hk he
      refine ⟨⟨e, [], rest, by simp [← hk], he, by simp⟩, ?_⟩
      intro kv hkv
      rcases List.mem_cons.1 hkv with h₀ | h₀
      · rw [h₀]; dsimp only; omega
      · have := hmin kv h₀; omega
    · obtain ⟨hk, he⟩ := Prod.ext_iff.1 (heq.symm.trans h')
      dsimp only at hk he
      subst hk
      refine ⟨⟨en, (k, e) :: pre, post, by simp [hdec], he, ?_⟩, ?_⟩
      · intro kv hkv
        rcases List.mem_cons.1 hkv with h₀ | h₀
        · rw [h₀]; dsimp only; omega
        · have := hpre kv h₀; omega
      · intro kv hkv
        rcases List.mem_cons.1 hkv with h₀ | h₀
        · rw [h₀]; dsimp only; omega
        · have := hmin kv h₀; omega

/-- The scanned winner is an entry of the map. -/
theorem scanSoonest_mem {m : EntryMap V} {k₀ : String} {e₀ : Int}
    (h : scanSoonest m = some (k₀, e₀)) :
    ∃ en, (k₀, en) ∈ m ∧ en.expiresAt = e₀ := by
  obtain ⟨⟨en, pre, post, hdec, he, _⟩, _⟩ := scanSoonest_spec h
  exact ⟨en, by rw [hdec]; simp, he⟩

/-- If nothing in the list beats the incoming candidate, the scan keeps it. -/
theorem scanAux_of_min {l : EntryMap V} {bk : String} {be : Int}
    (h : ∀ kv ∈ l, be ≤ kv.2.expiresAt) : scanAux bk be l = (bk, be) := by
  induction l with
  | nil => rfl
  | cons hd tl ih =>
    obtain ⟨k, e⟩ := hd
    have h₀ : ¬ e.expiresAt < be := by
      have := h (k, e) (List.mem_cons_self _ _)
      dsimp only at this
      omega
    rw [scanAux, if_neg h₀]
    exact ih fun kv hkv => h kv (List.mem_cons_of_mem _ hkv)

theorem scanSoonest_isSome {m : EntryMap V} (h : m ≠ []) :
    (scanSoonest m).isSome := by
  match m with
  | [] => exact absurd rfl h
  | (k, e) :: rest => simp [scanSoonest]

/-! ### State-level helper lemmas -/

/-- No entry of the map sits under the falsy canonical key (the encoding of
`JSON.stringify(key) === undefined`).  Every canonical key actually produced
by `JSON.stringify` for a serializable key is a non-empty string, so this
holds throughout any run that only uses such keys. -/
def noEmptyKey (m : EntryMap V) : Prop := ∀ kv ∈ m, kv.1 ≠ ""

theorem noEmptyKey_filter {m : EntryMap V} (p : String × CacheEntry V → Bool)
    (h : noEmptyKey m) : noEmptyKey (m.filter p) :=
  fun kv hkv => h kv (List.mem_of_mem_filter hkv)

theorem noEmptyKey_mapSet {m : EntryMap V} {k : String} (e : CacheEntry V)
    (h : noEmptyKey m) (hk : k ≠ "") : noEmptyKey (mapSet m k e) := by
  intro kv hkv
  rcases mem_mapSet_cases hkv with h₀ | h₀
  · exact h kv h₀
  · rw [h₀]; exact hk

/-- Expired-or-live dichotomy used by `pruneExpiredEntries`: surviving
entries are exactly the live ones. -/
theorem mem_pruneExpiredEntries (t : Int) (m : EntryMap V)
    (kv : String × CacheEntry V) :
    kv ∈ pruneExpiredEntries t m ↔ kv ∈ m ∧ t < kv.2.expiresAt := by
  simp [pruneExpiredEntries, List.mem_filter, not_le]

/-- If every entry is live, the prune pass is a no-op. -/
theorem pruneExpiredEntries_of_live {t : Int} {m : EntryMap V}
    (h : ∀ kv ∈ m, t < kv.2.expiresAt) : pruneExpiredEntries t m = m := by
  rw [pruneExpiredEntries, List.filter_eq_self]
  intro kv hkv
  have := h kv hkv
  simp
  omega

theorem length_pruneExpiredEntries_le (t : Int) (m : EntryMap V) :
    (pruneExpiredEntries t m).length ≤ m.length :=
  List.length_filter_le _ _

/-- Below capacity, the eviction pass returns early. -/
theorem evict_of_lt {c : CacheState V}
    (h : (c.entries.length : Int) < c.capacity) :
    evictEntryIfOverCapacity c = c := by
  rw [evictEntryIfOverCapacity, if_pos h]

/-- On an empty map the scan finds no candidate and nothing is deleted. -/
theorem evict_of_nil {c : CacheState V} (h : c.entries = []) :
    evictEntryIfOverCapacity c = c := by
  rw [evictEntryIfOverCapacity]
  split
  · rfl
  · rw [h]
    rfl

/-- The eviction pass never touches the configuration. -/
theorem evict_config (c : CacheState V) :
    (evictEntryIfOverCapacity c).ttlMs = c.ttlMs
      ∧ (evictEntryIfOverCapacity c).capacity = c.capacity := by
  rw [evictEntryIfOverCapacity]
  split
  · exact ⟨rfl, rfl⟩
  · split
    · exact ⟨rfl, rfl⟩
    · split <;> exact ⟨rfl, rfl⟩

/-- The eviction pass either leaves the map alone or deletes the scanned key. -/
theorem evict_entries_cases (c : CacheState V) :
    (evictEntryIfOverCapacity c).entries = c.entries
      ∨ ∃ k₀ e₀, scanSoonest c.entries = some (k₀, e₀) ∧ k₀ ≠ ""
          ∧ (evictEntryIfOverCapacity c).entries = mapDelete c.entries k₀ := by
  rw [evictEntryIfOverCapacity]
  split
  · exact Or.inl rfl
  · split
    · exact Or.inl rfl
    · rename_i k₀ e₀ heq
      split
      · exact Or.inl rfl
      · rename_i hk
        exact Or.inr ⟨k₀, e₀, heq, hk, rfl⟩

/-- When the guard fires, the map is non-empty and carries no falsy key,
eviction strictly shrinks the map. -/
theorem evict_length_lt {c : CacheState V}
    (hge : c.capacity ≤ (c.entries.length : Int)) (hne : c.entries ≠ [])
    (hkeys : noEmptyKey c.entries) :
    (evictEntryIfOverCapacity c).entries.length < c.entries.length := by
  rw [evictEntryIfOverCapacity, if_neg (by omega)]
  cases hscan : scanSoonest c.entries with
  | none =>
    have hs := scanSoonest_isSome hne
    rw [hscan] at hs
    simp at hs
  | some p =>
    obtain ⟨k₀, e₀⟩ := p
    obtain ⟨en, hmem, _⟩ := scanSoonest_mem hscan
    dsimp only
    rw [if_neg (hkeys (k₀, en) hmem)]
    exact length_mapDelete_lt hmem

/-- `set` never touches the configuration. -/
theorem set_config (t : Int) (c : CacheState V) (k : String) (v : V) :
    (set t c k v).ttlMs = c.ttlMs ∧ (set t c k v).capacity = c.capacity := by
  rw [set]
  exact evict_config _

/-- The entry map produced by `set` is `mapSet` of the map left by the
prune-then-evict passes, with the fresh entry `{value, expiresAt: t + ttlMs}`. -/
theorem set_entries (t : Int) (c : CacheState V) (k : String) (v : V) :
    (set t c k v).entries
      = mapSet (evictEntryIfOverCapacity
          { c with entries := pruneExpiredEntries t c.entries }).entries
          k { value := v, expiresAt := t + c.ttlMs } := rfl

/-- `get` never touches the configuration. -/
theorem get_config (t : Int) (c : CacheState V) (k : String) :
    (get t c k).snd.ttlMs = c.ttlMs ∧ (get t c k).snd.capacity = c.capacity := by
  rw [get]
  split
  · exact ⟨rfl, rfl⟩
  · split <;> exact ⟨rfl, rfl⟩

/-- `get` either leaves the map alone or deletes the requested key. -/
theorem get_entries_cases (t : Int) (c : CacheState V) (k : String) :
    (get t c k).snd.entries = c.entries
      ∨ (get t c k).snd.entries = mapDelete c.entries k := by
  rw [get]
  split
  · exact Or.inl rfl
  · split
    · exact Or.inr rfl
    · exact Or.inl rfl

/-! ### Run-level invariants -/

/-- The key written by a `set` call has a truthy (non-empty) canonical form;
`get`/`clear` are unrestricted.  This holds for every key whose
`JSON.stringify` image is a string (i.e. every serializable key). -/
def setKeyOk {V : Type} : CacheOp V → Prop
  | .setOp _ k _ => k ≠ ""
  | _ => True

/-- Every operation, `get` included, uses a key whose canonical form is a
non-empty string. -/
def opKeyOk {V : Type} : CacheOp V → Prop
  | .getOp _ k => k ≠ ""
  | .setOp _ k _ => k ≠ ""
  | .clearOp => True

theorem setKeyOk_of_opKeyOk {op : CacheOp V} (h : opKeyOk op) : setKeyOk op := by
  cases op with
  | getOp t k => exact trivial
  | setOp t k v => exact h
  | clearOp => exact trivial

/-- Single-step preservation of the capacity invariant (capacity ≥ 1 and no
falsy key anywhere): after any one operation whose written key is truthy,
the map still has no falsy key and its size is still at most `capacity`. -/
theorem applyOp_inv_le_cap {c : CacheState V} {op : CacheOp V}
    (hcap : 1 ≤ c.capacity) (hkeys : noEmptyKey c.entries)
    (hlen : (c.entries.length : Int) ≤ c.capacity) (hop : setKeyOk op) :
    (applyOp c op).capacity = c.capacity ∧ (applyOp c op).ttlMs = c.ttlMs
      ∧ noEmptyKey (applyOp c op).entries
      ∧ ((applyOp c op).entries.length : Int) ≤ c.capacity := by
  cases op with
  | clearOp =>
    refine ⟨rfl, rfl, by simp [applyOp, clear, noEmptyKey], ?_⟩
    simp [applyOp, clear]
    omega
  | getOp t k =>
    obtain ⟨httl, hc⟩ := get_config t c k
    refine ⟨hc, httl, ?_, ?_⟩ <;>
      rcases get_entries_cases t c k with h | h <;> rw [applyOp, h]
    · exact hkeys
    · exact noEmptyKey_filter _ hkeys
    · exact hlen
    · have := length_mapDelete_le c.entries k
      omega
  | setOp t k v =>
    obtain ⟨httl, hc⟩ := set_config t c k v
    have hk : k ≠ "" := hop
    have hkeys₁ : noEmptyKey (pruneExpiredEntries t c.entries) :=
      noEmptyKey_filter _ hkeys
    have hlen₁ := length_pruneExpiredEntries_le t c.entries
    refine ⟨hc, httl, ?_, ?_⟩
    · rw [applyOp, set_entries]
      refine noEmptyKey_mapSet _ ?_ hk
      rcases evict_entries_cases
          { c with entries := pruneExpiredEntries t c.entries } with h | ⟨k₀, e₀, _, _, h⟩ <;>
        rw [h]
      · exact hkeys₁
      · exact noEmptyKey_filter _ hkeys₁
    · rw [applyOp, set_entries]
      have hmapset := length_mapSet_le
        (evictEntryIfOverCapacity
          { c with entries := pruneExpiredEntries t c.entries }).entries
        k { value := v, expiresAt := t + c.ttlMs }
      by_cases hlt : ((pruneExpiredEntries t c.entries).length : Int) < c.capacity
      · rw [evict_of_lt (c := { c with entries := pruneExpiredEntries t c.entries }) hlt]
          at hmapset ⊢
        dsimp only at hmapset ⊢
        omega
      · have hne : pruneExpiredEntries t c.entries ≠ [] := by
          intro hnil
          rw [hnil] at hlt
          simp at hlt
          omega
        have hdel := evict_length_lt
          (c := { c with entries := pruneExpiredEntries t c.entries })
          (by dsimp only; omega) hne hkeys₁
        dsimp only at hdel
        omega

/-- The capacity invariant holds after every prefix of a run from any state
satisfying it. -/
theorem run_inv_le_cap {c : CacheState V} {ops : List (CacheOp V)}
    (hcap : 1 ≤ c.capacity) (hkeys : noEmptyKey c.entries)
    (hlen : (c.entries.length : Int) ≤ c.capacity)
    (hops : ∀ op ∈ ops, setKeyOk op) :
    (run c ops).capacity = c.capacity ∧ noEmptyKey (run c ops).entries
      ∧ ((run c ops).entries.length : Int) ≤ c.capacity := by
  induction ops generalizing c with
  | nil => exact ⟨rfl, hkeys, hlen⟩
  | cons op rest ih =>
    obtain ⟨hc, _, hkeys₁, hlen₁⟩ :=
      applyOp_inv_le_cap hcap hkeys hlen (hops op (List.mem_cons_self _ _))
    have hrest : ∀ op₀ ∈ rest, setKeyOk op₀ :=
      fun op₀ h₀ => hops op₀ (List.mem_cons_of_mem _ h₀)
    obtain ⟨hc₂, hkeys₂, hlen₂⟩ := ih (c := applyOp c op)
      (hc ▸ hcap) hkeys₁ (hc ▸ hlen₁) hrest
    exact ⟨hc ▸ hc₂, hkeys₂, hc ▸ hlen₂⟩

/-- Single-step preservation of the degenerate-capacity invariant
(capacity ≤ 0, no falsy key): the map never holds more than one entry. -/
theorem applyOp_inv_le_one {c : CacheState V} {op : CacheOp V}
    (hcap : c.capacity ≤ 0) (hkeys : noEmptyKey c.entries)
    (hlen : c.entries.length ≤ 1) (hop : setKeyOk op) :
    (applyOp c op).capacity = c.capacity
      ∧ noEmptyKey (applyOp c op).entries
      ∧ (applyOp c op).entries.length ≤ 1 := by
  cases op with
  | clearOp => exact ⟨rfl, by simp [applyOp, clear, noEmptyKey], by simp [applyOp, clear]⟩
  | getOp t k =>
    obtain ⟨_, hc⟩ := get_config t c k
    refine ⟨hc, ?_, ?_⟩ <;>
      rcases get_entries_cases t c k with h | h <;> rw [applyOp, h]
    · exact hkeys
    · exact noEmptyKey_filter _ hkeys
    · exact hlen
    · have := length_mapDelete_le c.entries k
      omega
  | setOp t k v =>
    obtain ⟨_, hc⟩ := set_config t c k v
    have hk : k ≠ "" := hop
    have hkeys₁ : noEmptyKey (pruneExpiredEntries t c.entries) :=
      noEmptyKey_filter _ hkeys
    have hlen₁ := length_pruneExpiredEntries_le t c.entries
    refine ⟨hc, ?_, ?_⟩
    · rw [applyOp, set_entries]
      refine noEmptyKey_mapSet _ ?_ hk
      rcases evict_entries_cases
          { c with entries := pruneExpiredEntries t c.entries } with h | ⟨k₀, e₀, _, _, h⟩ <;>
        rw [h]
      · exact hkeys₁
      · exact noEmptyKey_filter _ hkeys₁
    · rw [applyOp, set_entries]
      have hmapset := length_mapSet_le
        (evictEntryIfOverCapacity
          { c with entries := pruneExpiredEntries t c.entries }).entries
        k { value := v, expiresAt := t + c.ttlMs }
      by_cases hnil : pruneExpiredEntries t c.entries = []
      · rw [evict_of_nil (c := { c with entries := pruneExpiredEntries t c.entries }) hnil]
          at hmapset ⊢
        dsimp only at hmapset ⊢
        rw [hnil] at hmapset ⊢
        simpa using hmapset
      · have hge : (({ c with entries := pruneExpiredEntries t c.entries } :
            CacheState V).capacity : Int)
            ≤ ((({ c with entries := pruneExpiredEntries t c.entries } :
                CacheState V).entries.length : Int)) := by
          dsimp only
          have : 0 < (pruneExpiredEntries t c.entries).length :=
            List.length_pos.2 hnil
          omega
        have hdel := evict_length_lt
          (c := { c with entries := pruneExpiredEntries t c.entries }) hge hnil hkeys₁
        dsimp only at hdel
        omega

/-- The degenerate-capacity invariant holds after every prefix of a run. -/
theorem run_inv_le_one {c : CacheState V} {ops : List (CacheOp V)}
    (hcap : c.capacity ≤ 0) (hkeys : noEmptyKey c.entries)
    (hlen : c.entries.length ≤ 1) (hops : ∀ op ∈ ops, setKeyOk op) :
    (run c ops).entries.length ≤ 1 := by
  induction ops generalizing c with
  | nil => exact hlen
  | cons op rest ih =>
    obtain ⟨hc, hkeys₁, hlen₁⟩ :=
      applyOp_inv_le_one hcap hkeys hlen (hops op (List.mem_cons_self _ _))
    exact ih (c := applyOp c op) (hc ▸ hcap) hkeys₁ hlen₁
      fun op₀ h₀ => hops op₀ (List.mem_cons_of_mem _ h₀)

/-! ### Unbounded growth behind a falsy canonical key -/

/-- `Map.set` of an absent key is an append. -/
theorem mapSet_of_not_contains {m : EntryMap V} {k : String}
    (e : CacheEntry V) (h : mapContains m k = false) :
    mapSet m k e = m ++ [(k, e)] := by
  induction m with
  | nil => rfl
  | cons kv rest ih =>
    obtain ⟨k₀, e₀⟩ := kv
    by_cases hk : k₀ = k
    · simp [mapContains, mapGet, hk] at h
    · have h₁ : mapContains rest k = false := by
        simpa [mapContains, mapGet, hk] using h
      simp [mapSet, hk, ih h₁]

/-- `set` on an empty map just inserts the fresh entry. -/
theorem set_on_empty (t : Int) (c : CacheState V) (k : String) (v : V)
    (h : c.entries = []) :
    (set t c k v).entries = [(k, { value := v, expiresAt := t + c.ttlMs })] := by
  rw [set_entries, h]
  rw [show pruneExpiredEntries t ([] : EntryMap V) = [] from rfl]
  rw [evict_of_nil (c := { c with entries := [] }) rfl]
  rfl

/-- `set` at time 0 on a degenerate-capacity cache whose first entry (in
iteration order) sits under the falsy canonical key and all of whose entries
expire at `ttlMs`: the prune pass keeps everything, the eviction scan elects
the falsy first entry (ties are broken towards the first entry), the
truthiness guard `if (soonestKey)` then skips the deletion, and the fresh
key is appended — the map grows by one. -/
theorem set_falsy_head_append {c : CacheState V} {e₀ : CacheEntry V}
    {rest : EntryMap V} {k : String} (v : V)
    (hcap : c.capacity ≤ 0)
    (hent : c.entries = ("", e₀) :: rest)
    (hexp : ∀ kv ∈ c.entries, kv.2.expiresAt = c.ttlMs)
    (httl : 0 < c.ttlMs)
    (hfresh : mapContains c.entries k = false) :
    (set 0 c k v).entries
      = c.entries ++ [(k, { value := v, expiresAt := c.ttlMs })] := by
  have hlive : ∀ kv ∈ c.entries, (0 : Int) < kv.2.expiresAt := by
    intro kv hkv
    rw [hexp kv hkv]
    exact httl
  have hprune : pruneExpiredEntries 0 c.entries = c.entries :=
    pruneExpiredEntries_of_live hlive
  have hguard : ¬ (((pruneExpiredEntries 0 c.entries).length : Int) < c.capacity) := by
    rw [hprune, hent]
    simp only [List.length_cons]
    push_cast
    omega
  have he₀ : e₀.expiresAt = c.ttlMs := hexp ("", e₀) (by rw [hent]; simp)
  have hscan : scanSoonest (pruneExpiredEntries 0 c.entries)
      = some ("", e₀.expiresAt) := by
    rw [hprune, hent, scanSoonest]
    rw [scanAux_of_min]
    intro kv hkv
    rw [he₀, hexp kv (by rw [hent]; exact List.mem_cons_of_mem _ hkv)]
  rw [set_entries]
  rw [evictEntryIfOverCapacity, if_neg hguard, hscan]
  dsimp only
  rw [if_pos rfl]
  dsimp only
  rw [hprune, mapSet_of_not_contains _ hfresh, zero_add]

/-- Iterating `set` at time 0 with pairwise-distinct fresh truthy keys on a
cache in the configuration of `set_falsy_head_append` appends one live entry
per call: the entry count grows without bound. -/
theorem run_sets_falsy_head (ks : List String) :
    ∀ (c : CacheState V) (e₀ : CacheEntry V) (rest : EntryMap V) (v : V),
    c.capacity ≤ 0 → 0 < c.ttlMs →
    c.entries = ("", e₀) :: rest →
    (∀ kv ∈ c.entries, kv.2.expiresAt = c.ttlMs) →
    (∀ k ∈ ks, mapContains c.entries k = false) → ks.Nodup →
    (run c (ks.map (fun k => CacheOp.setOp 0 k v))).entries.length
        = c.entries.length + ks.length
      ∧ ∀ kv ∈ (run c (ks.map (fun k => CacheOp.setOp 0 k v))).entries,
          kv.2.expiresAt = c.ttlMs := by
  induction ks with
  | nil => intro c e₀ rest v _ _ _ hexp _ _; exact ⟨rfl, hexp⟩
  | cons k ks ih =>
    intro c e₀ rest v hcap httl hent hexp hfresh hnodup
    have hstep := set_falsy_head_append v
      hcap hent hexp httl (hfresh k (List.mem_cons_self _ _))
    obtain ⟨httl', hcap'⟩ := set_config 0 c k v
    have hrun : run c (((k :: ks).map (fun k => CacheOp.setOp 0 k v)))
        = run (set 0 c k v) (ks.map (fun k => CacheOp.setOp 0 k v)) := by
      simp [run, List.foldl_cons, applyOp]
    have hexp' : ∀ kv ∈ (set 0 c k v).entries, kv.2.expiresAt = (set 0 c k v).ttlMs := by
      intro kv hkv
      rw [hstep] at hkv
      rw [httl']
      rcases List.mem_append.1 hkv with h₀ | h₀
      · exact hexp kv h₀
      · rw [List.mem_singleton.1 h₀]
    have hent' : (set 0 c k v).entries = ("", e₀) :: (rest ++ [(k, { value := v, expiresAt := c.ttlMs })]) := by
      rw [hstep, hent]
      simp
    have hfresh' : ∀ j ∈ ks, mapContains (set 0 c k v).entries j = false := by
      intro j hj
      rw [hstep, mapContains_append_single]
      have h₁ : mapContains c.entries j = false :=
        hfresh j (List.mem_cons_of_mem _ hj)
      have h₂ : k ≠ j := fun h => (List.nodup_cons.1 hnodup).1 (h ▸ hj)
      simp [h₁, h₂]
    obtain ⟨hlen, hall⟩ := ih (set 0 c k v) e₀ _ v (by omega) (by omega)
      hent' hexp' hfresh' (List.nodup_cons.1 hnodup).2
    rw [hrun]
    constructor
    · rw [hlen, hstep, hent]
      simp
      omega
    · intro kv hkv
      rw [← httl']
      exact hall kv hkv

/-- The key `"a"` repeated `n` times: a family of pairwise-distinct truthy
canonical keys. -/
def repkey (n : Nat) : String := String.mk (List.replicate n 'a')

theorem repkey_inj : Function.Injective repkey := by
  intro a b h
  have h₂ : List.replicate a 'a' = List.replicate b 'a' := congrArg String.data h
  simpa using congrArg List.length h₂

theorem repkey_ne_empty {n : Nat} (h : n ≠ 0) : repkey n ≠ "" := by
  intro heq
  have h₂ : List.replicate n 'a' = ([] : List Char) := congrArg String.data heq
  have h₃ := congrArg List.length h₂
  simp at h₃
  exact h h₃

/-! ### `get` case analysis -/

theorem get_of_none {c : CacheState V} {k : String} (t : Int)
    (h : mapGet c.entries k = none) : get t c k = (none, c) := by
  rw [get, h]

theorem get_of_live {c : CacheState V} {k : String} {e : CacheEntry V} {t : Int}
    (h : mapGet c.entries k = some e) (hl : t < e.expiresAt) :
    get t c k = (some e.value, c) := by
  rw [get, h]
  dsimp only
  rw [if_neg (by simp [isExpired]; omega)]

theorem get_of_expired {c : CacheState V} {k : String} {e : CacheEntry V} {t : Int}
    (h : mapGet c.entries k = some e) (hl : e.expiresAt ≤ t) :
    get t c k = (none, { c with entries := mapDelete c.entries k }) := by
  rw [get, h]
  dsimp only
  rw [if_pos (by simp [isExpired]; omega)]

/-- Round trip: a `set` followed by a `get` of the same canonical key before
the freshly written entry expires yields the stored value. -/
theorem get_set_fresh (c : CacheState V) (k : String) (v : V) (t tq : Int)
    (h : tq < t + c.ttlMs) : (get tq (set t c k v) k).fst = some v := by
  have hget : mapGet (set t c k v).entries k
      = some { value := v, expiresAt := t + c.ttlMs } := by
    rw [set_entries]
    exact mapGet_mapSet_self _ _ _
  rw [get_of_live hget (by dsimp only; omega)]

/-! ### The claims -/

/-- C1, counterexample: a cache constructed with capacity 1 (≥ 1), the
two-`set` sequence `set(undefined, 1); set("a", 2)` at time 0 — the first
key's canonical form `JSON.stringify(undefined)` is falsy (encoded `""`) —
ends with 2 > 1 live stored entries immediately after a `set` completes:
the eviction scan elects the falsy-keyed entry and `if (soonestKey)` skips
the deletion. -/
theorem c1_counterexample :
    (mkCache (V := Nat) 1000 1).capacity = 1
    ∧ (run (mkCache (V := Nat) 1000 1)
        [CacheOp.setOp 0 "" 1, CacheOp.setOp 0 "a" 2]).entries.length = 2
    ∧ ∀ kv ∈ (run (mkCache (V := Nat) 1000 1)
        [CacheOp.setOp 0 "" 1, CacheOp.setOp 0 "a" 2]).entries,
        (0 : Int) < kv.2.expiresAt := by
  decide

/-- C1, amended: for every cache constructed with capacity ≥ 1 and every
sequence of get/set/clear operations in which every `set` uses a key whose
canonical form is truthy (a non-empty string — which is the case for every
key that `JSON.stringify` serializes to a string), after any `set` call
completes the number of stored entries is at most the capacity. -/
theorem c1_amended {V : Type} (ttl cap : Int) (hcap : 1 ≤ cap)
    (pre : List (CacheOp V)) (t : Int) (k : String) (v : V)
    (hpre : ∀ op ∈ pre, setKeyOk op) (hk : k ≠ "") :
    ((run (mkCache (V := V) ttl cap)
        (pre ++ [CacheOp.setOp t k v])).entries.length : Int) ≤ cap := by
  have hops : ∀ op ∈ pre ++ [CacheOp.setOp t k v], setKeyOk op := by
    intro op hop
    rcases List.mem_append.1 hop with h | h
    · exact hpre op h
    · rw [List.mem_singleton.1 h]
      exact hk
  have hrun := @run_inv_le_cap V (mkCache (V := V) ttl cap)
    (pre ++ [CacheOp.setOp t k v]) hcap
    (by intro kv hkv; simp [mkCache] at hkv)
    (by simp [mkCache]; omega) hops
  exact hrun.2.2

theorem c1_amended_witness :
    ((1 : Int) ≤ 1) ∧ ("a" ≠ "")
      ∧ ((run (mkCache (V := Nat) 1000 1)
          ([] ++ [CacheOp.setOp 0 "a" 7])).entries.length : Int) ≤ 1 :=
  ⟨by decide, by decide,
    c1_amended 1000 1 (by decide) [] 0 "a" 7 (by intro op hop; simp at hop) (by decide)⟩

/-- C2: with a positive TTL, if at most `ttlMs` time passes (strictly less
than `ttlMs`) between the calls, `set(k, v)` followed by `get(k)` returns
`v`. -/
theorem c2_round_trip (c : CacheState V) (k : String) (v : V) (t tq : Int)
    (httl : 0 < c.ttlMs) (h₁ : t ≤ tq) (h₂ : tq - t < c.ttlMs) :
    (get tq (set t c k v) k).fst = some v :=
  get_set_fresh c k v t tq (by omega)

theorem c2_round_trip_witness :
    ((0 : Int) < 1000) ∧ ((0 : Int) ≤ 0) ∧ ((0 : Int) - 0 < 1000)
      ∧ (get 0 (set 0 (mkCache (V := Nat) 1000 5) "k" 7) "k").fst = some 7 :=
  ⟨by decide, by decide, by decide,
    c2_round_trip (mkCache 1000 5) "k" 7 0 0 (by decide) (by decide) (by decide)⟩

/-- C3: if `set(k, v)` runs at time `t` with TTL `τ = ttlMs` and nothing
else intervenes, `get(k)` at any time `≥ t + τ` returns absent and deletes
the entry, while `get(k)` at any time in `[t, t + τ)` returns `v`. -/
theorem c3_expiry (c : CacheState V) (k : String) (v : V) (t tq : Int) :
    (t + c.ttlMs ≤ tq →
      (get tq (set t c k v) k).fst = none
        ∧ mapGet (get tq (set t c k v) k).snd.entries k = none)
    ∧ (t ≤ tq → tq < t + c.ttlMs → (get tq (set t c k v) k).fst = some v) := by
  constructor
  · intro h
    have hget : mapGet (set t c k v).entries k
        = some { value := v, expiresAt := t + c.ttlMs } := by
      rw [set_entries]
      exact mapGet_mapSet_self _ _ _
    rw [get_of_expired hget (by dsimp only; omega)]
    refine ⟨rfl, ?_⟩
    dsimp only
    rw [mapGet_mapDelete, if_pos rfl]
  · intro _ h₂
    exact get_set_fresh c k v t tq h₂

theorem c3_expiry_witness :
    ((0 : Int) + 50 ≤ 60)
      ∧ (get 60 (set 0 (mkCache (V := Nat) 50 5) "x" 3) "x").fst = none
      ∧ mapGet (get 60 (set 0 (mkCache (V := Nat) 50 5) "x" 3) "x").snd.entries "x"
          = none :=
  ⟨by decide, (c3_expiry (mkCache 50 5) "x" 3 0 60).1 (by decide)⟩

/-- C5: `clear` unconditionally empties the store (it cannot fail — it is a
total state update); afterwards `get` is absent for every key, and a
subsequent `set`/`get` round trip before expiry still returns the stored
value. -/
theorem c5_clear (c : CacheState V) (j k : String) (v : V) (u t tq : Int)
    (h : tq < t + c.ttlMs) :
    (clear c).entries = []
    ∧ (get u (clear c) j).fst = none
    ∧ (get tq (set t (clear c) k v) k).fst = some v := by
  refine ⟨rfl, ?_, ?_⟩
  · rw [get_of_none u (by rw [show (clear c).entries = [] from rfl]; rfl)]
  · exact get_set_fresh (clear c) k v t tq h

theorem c5_clear_witness :
    ((0 : Int) < 0 + 1000)
      ∧ (clear (mkCache (V := Nat) 1000 5)).entries = []
      ∧ (get 0 (clear (mkCache (V := Nat) 1000 5)) "old").fst = none
      ∧ (get 0 (set 0 (clear (mkCache (V := Nat) 1000 5)) "k" 9) "k").fst = some 9 :=
  ⟨by decide, c5_clear (mkCache 1000 5) "old" "k" 9 0 0 0 (by decide)⟩

/-- C4, counterexample: on a cache with capacity 0 and an empty (already
pruned) map, the remaining entry count (0) is ≥ capacity, yet the eviction
step deletes nothing — there is no "entry with the smallest `expiresAt`"
to delete — and the subsequent insert leaves the count at `pruned + 1`
rather than the `pruned` that "deletes exactly one entry, then inserts one"
would give. -/
theorem c4_counterexample :
    ((mkCache (V := Nat) 1000 0).capacity
        ≤ ((pruneExpiredEntries 0 (mkCache (V := Nat) 1000 0).entries).length : Int))
    ∧ evictEntryIfOverCapacity
        { mkCache (V := Nat) 1000 0 with
          entries := pruneExpiredEntries 0 (mkCache (V := Nat) 1000 0).entries }
        = mkCache (V := Nat) 1000 0
    ∧ (set 0 (mkCache (V := Nat) 1000 0) "a" 7).entries.length
        = (pruneExpiredEntries 0 (mkCache (V := Nat) 1000 0).entries).length + 1 := by
  decide

/-- C4, amended: every `set` call first deletes exactly the entries with
`expiresAt ≤ now` (prune), and then, if the remaining entry count is
≥ capacity **and at least one entry remains**, it selects the remaining
entry with the smallest `expiresAt` (ties broken by the first one
encountered in iteration order) and deletes it **unless its canonical key
is the falsy one** (empty encoding of `JSON.stringify(undefined)`), in
which case nothing is deleted; if the count is < capacity (or no entry
remains) no entry is deleted by this step.  Finally the fresh entry is
stored under the written key. -/
theorem c4_amended (c : CacheState V) (t : Int) (k : String) (v : V) :
    (set t c k v).entries
      = mapSet (evictEntryIfOverCapacity
          { c with entries := pruneExpiredEntries t c.entries }).entries
          k { value := v, expiresAt := t + c.ttlMs }
    ∧ (∀ kv, kv ∈ pruneExpiredEntries t c.entries
        ↔ kv ∈ c.entries ∧ t < kv.2.expiresAt)
    ∧ (((pruneExpiredEntries t c.entries).length : Int) < c.capacity →
        (evictEntryIfOverCapacity
          { c with entries := pruneExpiredEntries t c.entries }).entries
          = pruneExpiredEntries t c.entries)
    ∧ (pruneExpiredEntries t c.entries ≠ [] →
        ∃ k₀ e₀, scanSoonest (pruneExpiredEntries t c.entries) = some (k₀, e₀))
    ∧ (c.capacity ≤ ((pruneExpiredEntries t c.entries).length : Int) →
        (pruneExpiredEntries t c.entries = [] →
          (evictEntryIfOverCapacity
            { c with entries := pruneExpiredEntries t c.entries }).entries
            = pruneExpiredEntries t c.entries)
        ∧ ∀ k₀ e₀, scanSoonest (pruneExpiredEntries t c.entries) = some (k₀, e₀) →
            (∃ en pre post, pruneExpiredEntries t c.entries = pre ++ (k₀, en) :: post
              ∧ en.expiresAt = e₀ ∧ ∀ kv ∈ pre, e₀ < kv.2.expiresAt)
            ∧ (∀ kv ∈ pruneExpiredEntries t c.entries, e₀ ≤ kv.2.expiresAt)
            ∧ (evictEntryIfOverCapacity
                { c with entries := pruneExpiredEntries t c.entries }).entries
              = if k₀ = "" then pruneExpiredEntries t c.entries
                else mapDelete (pruneExpiredEntries t c.entries) k₀) := by
  refine ⟨set_entries t c k v, mem_pruneExpiredEntries t c.entries, ?_, ?_, ?_⟩
  · intro h
    rw [evict_of_lt (c := { c with entries := pruneExpiredEntries t c.entries })
      (by dsimp only; exact h)]
  · intro hne
    have := scanSoonest_isSome (m := pruneExpiredEntries t c.entries) hne
    cases hscan : scanSoonest (pruneExpiredEntries t c.entries) with
    | none => rw [hscan] at this; simp at this
    | some p =>
      obtain ⟨k₀, e₀⟩ := p
      exact ⟨k₀, e₀, rfl⟩
  · intro hge
    constructor
    · intro hnil
      rw [evict_of_nil (c := { c with entries := pruneExpiredEntries t c.entries }) hnil]
    · intro k₀ e₀ hscan
      obtain ⟨hdec, hmin⟩ := scanSoonest_spec hscan
      refine ⟨hdec, hmin, ?_⟩
      rw [evictEntryIfOverCapacity, if_neg (by dsimp only; omega)]
      dsimp only
      rw [hscan]
      dsimp only
      by_cases hk : k₀ = ""
      · rw [if_pos hk, if_pos hk]
      · rw [if_neg hk, if_neg hk]

theorem c4_amended_witness :
    (((pruneExpiredEntries 0 (mkCache (V := Nat) 1000 5).entries).length : Int)
        < (mkCache (V := Nat) 1000 5).capacity)
      ∧ (evictEntryIfOverCapacity
          { mkCache (V := Nat) 1000 5 with
            entries := pruneExpiredEntries 0 (mkCache (V := Nat) 1000 5).entries }).entries
        = pruneExpiredEntries 0 (mkCache (V := Nat) 1000 5).entries :=
  ⟨by decide, (c4_amended (mkCache (V := Nat) 1000 5) 0 "a" 7).2.2.1 (by decide)⟩

/-- C6: with capacity ≤ 0 the configured capacity never bounds the cache:
for every bound `N` there is a sequence of `set` calls with pairwise
distinct keys, all unexpired, after which the cache stores more than `N`
(live) entries.  The sequence first writes the key whose canonical form is
falsy (`set(undefined, v)`, encoded `""`); that entry wins every eviction
scan but `if (soonestKey)` never deletes it, so each later `set` of a fresh
key appends without evicting. -/
theorem c6_unbounded_growth {V : Type} (v : V) (ttl cap : Int)
    (hcap : cap ≤ 0) (httl : 0 < ttl) (N : Nat) :
    ∃ keys : List String, keys.Nodup
      ∧ N < (run (mkCache (V := V) ttl cap)
          (keys.map (fun k => CacheOp.setOp 0 k v))).entries.length
      ∧ ∀ kv ∈ (run (mkCache (V := V) ttl cap)
          (keys.map (fun k => CacheOp.setOp 0 k v))).entries,
          (0 : Int) < kv.2.expiresAt := by
  refine ⟨"" :: (List.range N).map (fun i => repkey (i + 1)), ?_, ?_⟩
  · rw [List.nodup_cons]
    constructor
    · intro hmem
      rcases List.mem_map.1 hmem with ⟨i, _, hi⟩
      exact repkey_ne_empty (Nat.succ_ne_zero i) hi
    · refine List.Nodup.map ?_ (List.nodup_range N)
      intro a b hab
      have := repkey_inj hab
      omega
  · have hs₀ : (set 0 (mkCache (V := V) ttl cap) "" v).entries
        = [("", { value := v, expiresAt := ttl })] := by
      rw [set_on_empty 0 (mkCache (V := V) ttl cap) "" v rfl]
      rw [show (0 : Int) + (mkCache (V := V) ttl cap).ttlMs = ttl from by
        rw [zero_add]
        rfl]
    obtain ⟨httl₀, hcap₀⟩ := set_config 0 (mkCache (V := V) ttl cap) "" v
    have httl₀' : (set 0 (mkCache (V := V) ttl cap) "" v).ttlMs = ttl := httl₀
    have hcap₀' : (set 0 (mkCache (V := V) ttl cap) "" v).capacity = cap := hcap₀
    have hrun : run (mkCache (V := V) ttl cap)
        ((("" :: (List.range N).map (fun i => repkey (i + 1))).map
          (fun k => CacheOp.setOp 0 k v)))
        = run (set 0 (mkCache (V := V) ttl cap) "" v)
            (((List.range N).map (fun i => repkey (i + 1))).map
              (fun k => CacheOp.setOp 0 k v)) := by
      simp [run, List.foldl_cons, applyOp]
    obtain ⟨hlen, hall⟩ := run_sets_falsy_head
      (((List.range N).map (fun i => repkey (i + 1))))
      (set 0 (mkCache (V := V) ttl cap) "" v)
      { value := v, expiresAt := ttl } [] v
      (by omega) (by omega) hs₀
      (by
        intro kv hkv
        rw [hs₀] at hkv
        rw [List.mem_singleton.1 hkv, httl₀'])
      (by
        intro j hj
        rcases List.mem_map.1 hj with ⟨i, _, hi⟩
        have hne : ¬ ("" : String) = j := fun h =>
          repkey_ne_empty (Nat.succ_ne_zero i) (hi.trans h.symm)
        rw [hs₀]
        simp [mapContains, mapGet, hne])
      (by
        refine List.Nodup.map ?_ (List.nodup_range N)
        intro a b hab
        have := repkey_inj hab
        omega)
    rw [hrun]
    constructor
    · rw [hlen, hs₀]
      simp
    · intro kv hkv
      rw [hall kv hkv, httl₀']
      exact httl

theorem c6_unbounded_growth_witness :
    ((0 : Int) ≤ 0) ∧ ((0 : Int) < 1000)
      ∧ ∃ keys : List String, keys.Nodup
        ∧ 2 < (run (mkCache (V := Nat) 1000 0)
            (keys.map (fun k => CacheOp.setOp 0 k 7))).entries.length
        ∧ ∀ kv ∈ (run (mkCache (V := Nat) 1000 0)
            (keys.map (fun k => CacheOp.setOp 0 k 7))).entries,
            (0 : Int) < kv.2.expiresAt :=
  ⟨by decide, by decide, c6_unbounded_growth 7 1000 0 (by decide) (by decide) 2⟩

/-- C7, counterexample: capacity 2, TTL 1000; after `set("j",1)` at t=0 and
`set("k",2)` at t=5 the cache holds 2 live entries and `"k"` is present.
Calling `set("k",10)` then `set("k",20)` at t=5 — nothing expires — leaves
1 entry, not the 2 present before the first call: the first overwrite runs
the eviction check against the pre-insert count, finds the cache full and
evicts `"j"` even though the write is an overwrite.  (`get("k")` does
return the last value.) -/
theorem c7_counterexample :
    (run (mkCache (V := Nat) 1000 2)
        [CacheOp.setOp 0 "j" 1, CacheOp.setOp 5 "k" 2]).entries.length = 2
    ∧ (∀ kv ∈ (run (mkCache (V := Nat) 1000 2)
        [CacheOp.setOp 0 "j" 1, CacheOp.setOp 5 "k" 2]).entries,
        (5 : Int) < kv.2.expiresAt)
    ∧ mapContains (run (mkCache (V := Nat) 1000 2)
        [CacheOp.setOp 0 "j" 1, CacheOp.setOp 5 "k" 2]).entries "k" = true
    ∧ (set 5 (set 5 (run (mkCache (V := Nat) 1000 2)
        [CacheOp.setOp 0 "j" 1, CacheOp.setOp 5 "k" 2]) "k" 10) "k" 20).entries.length
      = 1
    ∧ (get 5 (set 5 (set 5 (run (mkCache (V := Nat) 1000 2)
        [CacheOp.setOp 0 "j" 1, CacheOp.setOp 5 "k" 2]) "k" 10) "k" 20) "k").fst
      = some 20 := by
  decide

/-- C7, amended: if `k` is already present and live, no entry is expired at
the time of the calls, and the cache is strictly below capacity, then
`set(k, v1)` followed by `set(k, v2)` (at the same time, so nothing expires
in between) leaves the entry count unchanged relative to before the first
call, and `get(k)` afterwards returns `v2` (the round-trip part needs no
extra condition beyond a positive TTL). -/
theorem c7_amended (c : CacheState V) (k : String) (v₁ v₂ : V) (t : Int)
    (hlive : ∀ kv ∈ c.entries, t < kv.2.expiresAt)
    (hmem : mapContains c.entries k = true)
    (hcap : (c.entries.length : Int) < c.capacity)
    (httl : 0 < c.ttlMs) :
    (set t (set t c k v₁) k v₂).entries.length = c.entries.length
    ∧ (get t (set t (set t c k v₁) k v₂) k).fst = some v₂ := by
  obtain ⟨httl₁, hcap₁⟩ := set_config t c k v₁
  have hent₁ : (set t c k v₁).entries
      = mapSet c.entries k { value := v₁, expiresAt := t + c.ttlMs } := by
    rw [set_entries, pruneExpiredEntries_of_live hlive,
      evict_of_lt (c := { c with entries := c.entries }) (by dsimp only; exact hcap)]
  have hlen₁ : (set t c k v₁).entries.length = c.entries.length := by
    rw [hent₁]
    exact length_mapSet_of_contains _ hmem
  have hlive₁ : ∀ kv ∈ (set t c k v₁).entries, t < kv.2.expiresAt := by
    intro kv hkv
    rw [hent₁] at hkv
    rcases mem_mapSet_cases hkv with h | h
    · exact hlive kv h
    · rw [h]
      dsimp only
      omega
  have hmem₁ : mapContains (set t c k v₁).entries k = true := by
    unfold mapContains
    rw [hent₁, mapGet_mapSet_self]
    rfl
  have hcap₁' : ((set t c k v₁).entries.length : Int) < (set t c k v₁).capacity := by
    rw [hlen₁, hcap₁]
    exact hcap
  have hent₂ : (set t (set t c k v₁) k v₂).entries
      = mapSet (set t c k v₁).entries k
          { value := v₂, expiresAt := t + (set t c k v₁).ttlMs } := by
    rw [set_entries (c := set t c k v₁), pruneExpiredEntries_of_live hlive₁,
      evict_of_lt (c := { set t c k v₁ with entries := (set t c k v₁).entries })
        (by dsimp only; exact hcap₁')]
  refine ⟨?_, ?_⟩
  · rw [hent₂, length_mapSet_of_contains _ hmem₁, hlen₁]
  · exact get_set_fresh _ _ _ _ _ (by rw [httl₁]; omega)

theorem c7_amended_witness :
    (∀ kv ∈ (set 0 (mkCache (V := Nat) 1000 3) "k" 1).entries,
        (0 : Int) < kv.2.expiresAt)
      ∧ mapContains (set 0 (mkCache (V := Nat) 1000 3) "k" 1).entries "k" = true
      ∧ (((set 0 (mkCache (V := Nat) 1000 3) "k" 1).entries.length : Int)
          < (set 0 (mkCache (V := Nat) 1000 3) "k" 1).capacity)
      ∧ ((0 : Int) < (set 0 (mkCache (V := Nat) 1000 3) "k" 1).ttlMs)
      ∧ (set 0 (set 0 (set 0 (mkCache (V := Nat) 1000 3) "k" 1) "k" 2) "k" 3).entries.length
          = (set 0 (mkCache (V := Nat) 1000 3) "k" 1).entries.length
      ∧ (get 0 (set 0 (set 0 (set 0 (mkCache (V := Nat) 1000 3) "k" 1) "k" 2) "k" 3)
          "k").fst = some 3 :=
  ⟨by decide, by decide, by decide, by decide,
    c7_amended (set 0 (mkCache (V := Nat) 1000 3) "k" 1) "k" 2 3 0
      (by decide) (by decide) (by decide) (by decide)⟩

/-- C8: `getCacheKey = JSON.stringify` serializes object fields in property
insertion order, so the two semantically equal keys `{a:1, b:2}` and
`{b:2, a:1}` (the same field/value sets, listed in different insertion
orders — a permutation) canonicalize to different strings, and a `set`
under the first followed by a `get` under the second misses even though the
logically identical key was just stored (while the same-spelling `get`
hits).  This refutes the stability invariant the design requires of key
canonicalization. -/
theorem c8_key_order_bug :
    ([("a", (1 : Int)), ("b", 2)] : ObjKey).Perm [("b", (2 : Int)), ("a", 1)]
    ∧ getCacheKey [("a", (1 : Int)), ("b", 2)] ≠ getCacheKey [("b", (2 : Int)), ("a", 1)]
    ∧ (get 0 (set 0 (mkCache (V := Nat) 1000 10)
          (getCacheKey [("a", (1 : Int)), ("b", 2)]) 42)
        (getCacheKey [("b", (2 : Int)), ("a", 1)])).fst = none
    ∧ (get 0 (set 0 (mkCache (V := Nat) 1000 10)
          (getCacheKey [("a", (1 : Int)), ("b", 2)]) 42)
        (getCacheKey [("a", (1 : Int)), ("b", 2)])).fst = some 42 := by
  decide

/-- C9: `get` never rewrites `expiresAt` and never triggers the capacity
eviction pass: on a missing or live key the whole state is unchanged; on an
expired key exactly that key is deleted, every other entry (hence every
other `expiresAt`) and the configuration are untouched. -/
theorem c9_get_frame (c : CacheState V) (k : String) (t : Int) :
    (mapGet c.entries k = none → (get t c k).snd = c)
    ∧ (∀ e, mapGet c.entries k = some e → t < e.expiresAt → (get t c k).snd = c)
    ∧ (∀ e, mapGet c.entries k = some e → e.expiresAt ≤ t →
        (get t c k).snd.ttlMs = c.ttlMs
        ∧ (get t c k).snd.capacity = c.capacity
        ∧ mapGet (get t c k).snd.entries k = none
        ∧ ∀ j, j ≠ k → mapGet (get t c k).snd.entries j = mapGet c.entries j) := by
  refine ⟨?_, ?_, ?_⟩
  · intro h
    rw [get_of_none t h]
  · intro e h hl
    rw [get_of_live h hl]
  · intro e h hl
    rw [get_of_expired h hl]
    refine ⟨rfl, rfl, ?_, ?_⟩
    · dsimp only
      rw [mapGet_mapDelete, if_pos rfl]
    · intro j hj
      dsimp only
      rw [mapGet_mapDelete, if_neg hj]

theorem c9_get_frame_witness :
    mapGet (mkCache (V := Nat) 1000 5).entries "k" = none
      ∧ (get 0 (mkCache (V := Nat) 1000 5) "k").snd = mkCache (V := Nat) 1000 5 :=
  ⟨by decide, (c9_get_frame (mkCache (V := Nat) 1000 5) "k" 0).1 (by decide)⟩

/-- C10: with capacity ≤ 0, over any sequence of get/set/clear operations
whose keys all have non-empty (truthy) canonical forms, the cache never
holds more than one entry after any operation: the eviction check
`size ≥ capacity` passes on every `set`, the scan elects the sole entry of
a non-empty cache (its key being truthy, it is deleted), and only then is
the single fresh entry inserted. -/
theorem c10_degenerate_bound {V : Type} (ttl cap : Int) (hcap : cap ≤ 0)
    (ops pre post : List (CacheOp V)) (hsplit : ops = pre ++ post)
    (hops : ∀ op ∈ ops, opKeyOk op) :
    (run (mkCache (V := V) ttl cap) pre).entries.length ≤ 1 := by
  refine run_inv_le_one (c := mkCache (V := V) ttl cap) hcap
    (by intro kv hkv; simp [mkCache] at hkv) (by simp [mkCache]) ?_
  intro op hop
  exact setKeyOk_of_opKeyOk
    (hops op (by rw [hsplit]; exact List.mem_append.2 (Or.inl hop)))

theorem c10_degenerate_bound_witness :
    ((0 : Int) ≤ 0)
      ∧ (run (mkCache (V := Nat) 1000 0)
          [CacheOp.setOp 0 "a" 1, CacheOp.setOp 0 "b" 2]).entries.length ≤ 1 :=
  ⟨by decide,
    c10_degenerate_bound 1000 0 (by decide)
      [CacheOp.setOp 0 "a" 1, CacheOp.setOp 0 "b" 2]
      [CacheOp.setOp 0 "a" 1, CacheOp.setOp 0 "b" 2] [] (by simp)
      (by
        intro op hop
        simp at hop
        rcases hop with h | h
        · rw [h]
          exact (by decide : ("a" : String) ≠ "")
        · rw [h]
          exact (by decide : ("b" : String) ≠ ""))⟩

end TtlCache
